import Mathlib

/-!
Verification of the key-management core of the Kobocoin repository
(`src/key.h`): the `CKey` secret-key container, and the `CECKey` signing,
compact-signature, public-key recovery and additive-tweak operations.

The OpenSSL curve provider (point/bignum arithmetic) is external to the
repository; where a claim depends on it, the provider is modelled from the
specification: the secp256k1 group is cyclic of prime order `n`, so points
are represented by their discrete logarithm with respect to the generator
`G`, with `0` standing for the point at infinity.
-/

set_option maxRecDepth 4000

/-- The order `n` of the secp256k1 group (the constant OpenSSL returns from
`EC_GROUP_get_order` for `NID_secp256k1`). -/
def secpOrder : Nat :=
  0xFFFFFFFFFFFFFFFFFFFFFFFFFFFFFFFEBAAEDCE6AF48A03BBFD25E8CD0364141

/-- Big-endian value of a byte string, as computed by `BN_bin2bn`. -/
def beNat (l : List Nat) : Nat := l.foldl (fun acc b => acc * 256 + b) 0

/-- The `k`-byte big-endian encoding of `v` (zero-padded on the left when `v`
needs fewer than `k` bytes; truncated to the low `k` bytes otherwise). -/
def beBytes : Nat → Nat → List Nat
  | 0, _ => []
  | k + 1, v => beBytes k (v / 256) ++ [v % 256]

/-- Bit length computed by repeated halving, with explicit fuel so that the
recursion is structural. -/
def numBitsAux : Nat → Nat → Nat
  | 0, _ => 0
  | fuel + 1, v => if v = 0 then 0 else numBitsAux fuel (v / 2) + 1

/-- `BN_num_bits`: the bit length of `v` (`0` for `v = 0`). Fuel `v + 1`
always suffices since `v < 2 ^ (v + 1)`. -/
def bnNumBits (v : Nat) : Nat := numBitsAux (v + 1) v

/-- `(BN_num_bits(v) + 7) / 8`, the byte count written by `BN_bn2bin`. -/
def bnNumBytes (v : Nat) : Nat := (bnNumBits v + 7) / 8

/-- Overwrite the bytes of `buf` starting at offset `off` with `data`
(an in-bounds pointer write such as `BN_bn2bin(bn, &buf[off])`). -/
def writeAt (buf : List Nat) (off : Nat) (data : List Nat) : List Nat :=
  buf.take off ++ data ++ buf.drop (off + data.length)

/-- An encapsulated private key (`CKey` in `key.h`): the validity flag
`fValid`, the compressed hint `fCompressed`, and the raw byte data `vch`
(32 bytes). -/
structure CKey where
  fValid : Bool
  fCompressed : Bool
  vch : List Nat
deriving DecidableEq

/-- `CKey::size()`: `fValid ? 32 : 0`. -/
def CKey.size (k : CKey) : Nat := if k.fValid then 32 else 0

/-- `operator==(const CKey& a, const CKey& b)`: compares the compressed
flags, the sizes, and (when reached) `memcmp` over the first `a.size()`
bytes of both keys. -/
def CKey.keyEq (a b : CKey) : Bool :=
  a.fCompressed == b.fCompressed && a.size == b.size &&
    a.vch.take a.size == b.vch.take a.size

/-- Modelled from the spec: `CKey::Check` is declared in `key.h` but its
body lives in `key.cpp`, which is not among the examined sources. Spec
section 4.1: the 32-byte scalar must be in `[1, order-1]`. -/
def CKey.Check (vch : List Nat) : Bool :=
  decide (1 ≤ beNat vch) && decide (beNat vch < secpOrder)

/-- `CKey::Set(pbegin, pend, fCompressedIn)`: rejects ranges whose length is
not 32; otherwise runs `Check` and on success copies the bytes and records
the compressed hint. -/
def CKey.set (k : CKey) (data : List Nat) (fCompressedIn : Bool) : CKey :=
  if data.length ≠ 32 then { k with fValid := false }
  else if CKey.Check data then
    { fValid := true, fCompressed := fCompressedIn, vch := data }
  else { k with fValid := false }

/-- An `(r, s)` pair as held by an OpenSSL `ECDSA_SIG`. -/
structure ECDSASig where
  r : Nat
  s : Nat
deriving DecidableEq

/-- `halforder` as computed in `CECKey::Sign`: `BN_rshift1(halforder, order)`. -/
def halforder : Nat := secpOrder / 2

/-- The low-S step in `CECKey::Sign`: if `BN_cmp(s, halforder) > 0`, `s` is
replaced by `order - s`. -/
def signNormalize (sig : ECDSASig) : ECDSASig :=
  if halforder < sig.s then { sig with s := secpOrder - sig.s } else sig

/-- `CECKey::Sign(hash, vchSig)`, with the provider call `ECDSA_do_sign`
made an explicit argument (`none` models a NULL return, the only failure).
The produced pair is then DER-serialized by `i2d_ECDSA_SIG`; the claims
concern the `(r, s)` values, so the embedding returns the pair. -/
def CECKey.Sign (providerSig : Option ECDSASig) : Option ECDSASig :=
  match providerSig with
  | none => none
  | some sig => some (signNormalize sig)

/-- Result of `CECKey::SignCompact`: `fail` models `return false` (with
`fOk == false`), `assertFail` models the process abort in `assert(fOk)`,
and `ok p64 rec` models `return true` with the filled 64-byte body and the
chosen recovery id. -/
inductive SCOutcome where
  | fail : SCOutcome
  | assertFail : SCOutcome
  | ok : List Nat → Nat → SCOutcome
deriving DecidableEq

/-- The `for (int i=0; i<4; i++)` search in `CECKey::SignCompact`:
`recover i` stands for `ECDSA_SIG_recover_key_GFp(keyRec.pkey, sig, hash,
32, i, 1) == 1` followed by `keyRec.GetPubKey(pubkeyRec, true)`; the first
`i` whose recovered key equals `pk` is taken (`break`). -/
def findRecid (recover : Nat → Option Nat) (pk : Nat) : Option Nat :=
  if recover 0 = some pk then some 0
  else if recover 1 = some pk then some 1
  else if recover 2 = some pk then some 2
  else if recover 3 = some pk then some 3
  else none

/-- `CECKey::SignCompact(hash, p64, rec)`, with the provider calls made
explicit arguments: `providerSig` is the `ECDSA_do_sign` result, `recover`
the per-recid recovery outcome for this `(hash, sig)`, and `pk` the
signer's own public key from `GetPubKey(pubkey, true)`. The body is the
`memset(p64, 0, 64)` buffer with `r` written at offset
`32 - (nBitsR+7)/8` and `s` at `64 - (nBitsS+7)/8` by `BN_bn2bin`. -/
def CECKey.SignCompact (providerSig : Option ECDSASig)
    (recover : Nat → Option Nat) (pk : Nat) : SCOutcome :=
  match providerSig with
  | none => .fail
  | some sig =>
    if bnNumBits sig.r ≤ 256 ∧ bnNumBits sig.s ≤ 256 then
      match findRecid recover pk with
      | none => .assertFail
      | some i =>
        .ok (writeAt (writeAt (List.replicate 64 0)
              (32 - bnNumBytes sig.r) (beBytes (bnNumBytes sig.r) sig.r))
            (64 - bnNumBytes sig.s) (beBytes (bnNumBytes sig.s) sig.s)) i
    else .fail

/-- `CECKey::Recover(hash, p64, rec)`: `rec` is a C `int` and is rejected
when `rec < 0 || rec >= 3`; otherwise `recoverGFp r s rec` stands for
`ECDSA_SIG_recover_key_GFp(pkey, sig, hash, 32, rec, 0) == 1` on the
signature rebuilt by `BN_bin2bn` from the two 32-byte halves of `p64`. -/
def CECKey.Recover (p64 : List Nat) (rec : Int)
    (recoverGFp : Nat → Nat → Int → Bool) : Bool :=
  if rec < 0 ∨ 3 ≤ rec then false
  else recoverGFp (beNat (p64.take 32)) (beNat (p64.drop 32)) rec

set_option linter.unusedVariables false in
/-- `CECKey::TweakSecret(vchSecretOut, vchSecretIn, vchTweak)`: `out0` is
the caller's output buffer before the call; `memset(vchSecretOut, 0, 32)`
followed by `BN_bn2bin` at offset `32 - (nBits+7)/8` overwrites it
unconditionally. Returns the `ret` flag together with the buffer. -/
def CECKey.TweakSecret (out0 secretIn tweak : List Nat) : Bool × List Nat :=
  let bnTweak := beNat tweak
  let ret1 := decide (bnTweak < secpOrder)
  let bnSecret := (beNat secretIn + bnTweak) % secpOrder
  let ret := ret1 && !decide (bnSecret = 0)
  let out := writeAt (List.replicate 32 0) (32 - bnNumBytes bnSecret)
    (beBytes (bnNumBytes bnSecret) bnSecret)
  (ret, out)

/-- `CECKey::TweakPublic(vchTweak)`: the key's point is modelled from the
spec by its discrete log `p` (`0` = point at infinity), so `EC_POINT_mul`
computing `tweak*G + 1*point` is `(tweak + p) mod n`. Returns the `ret`
flag together with the point stored back into the key by the unconditional
`EC_KEY_set_public_key`. -/
def CECKey.TweakPublic (p : Nat) (tweak : List Nat) : Bool × Nat :=
  let bnTweak := beNat tweak
  let ret1 := decide (bnTweak < secpOrder)
  let point := (bnTweak + p) % secpOrder
  let ret := ret1 && !decide (point = 0)
  (ret, point)

/-- Modelled from the spec: `PointFromPrivate` of the curve provider in the
cyclic-group model — the public key of scalar `s` is the point with
discrete log `s mod n`. -/
def PublicKeyOf (s : Nat) : Nat := s % secpOrder

/-- The big-endian value of bytes 32..63 (the `s` half) of a successful
`SignCompact` body. -/
def scPackedS : SCOutcome → Option Nat
  | .ok p64 _ => some (beNat (p64.drop 32))
  | _ => none

theorem beBytes_length (k v : Nat) : (beBytes k v).length = k := by
  induction k generalizing v with
  | zero => rfl
  | succ k ih => simp [beBytes, ih]

theorem beNat_append_singleton (l : List Nat) (b : Nat) :
    beNat (l ++ [b]) = beNat l * 256 + b := by
  simp [beNat, List.foldl_append]

theorem beNat_beBytes {k v : Nat} (h : v < 256 ^ k) :
    beNat (beBytes k v) = v := by
  induction k generalizing v with
  | zero =>
    interval_cases v
    rfl
  | succ k ih =>
    have hdiv : v / 256 < 256 ^ k := by
      rw [Nat.div_lt_iff_lt_mul (by norm_num : (0:Nat) < 256)]
      calc v < 256 ^ (k + 1) := h
        _ = 256 ^ k * 256 := by rw [pow_succ]
    rw [beBytes, beNat_append_singleton, ih hdiv]
    have := Nat.div_add_mod v 256
    omega

theorem beBytes_zero (j : Nat) : beBytes j 0 = List.replicate j 0 := by
  induction j with
  | zero => rfl
  | succ j ih =>
    rw [beBytes, Nat.zero_div, Nat.zero_mod, ih, List.replicate_succ']

theorem beBytes_pad (j : Nat) {k v : Nat} (h : v < 256 ^ k) :
    beBytes (j + k) v = List.replicate j 0 ++ beBytes k v := by
  induction k generalizing v with
  | zero =>
    interval_cases v
    simpa [beBytes] using beBytes_zero j
  | succ k ih =>
    have hdiv : v / 256 < 256 ^ k := by
      rw [Nat.div_lt_iff_lt_mul (by norm_num : (0:Nat) < 256)]
      calc v < 256 ^ (k + 1) := h
        _ = 256 ^ k * 256 := by rw [pow_succ]
    have hjk : j + (k + 1) = (j + k) + 1 := by omega
    rw [hjk, beBytes, ih hdiv, beBytes, List.append_assoc]

theorem numBitsAux_lt (fuel v : Nat) (h : v < 2 ^ fuel) :
    v < 2 ^ numBitsAux fuel v := by
  induction fuel generalizing v with
  | zero =>
    simp at h
    simp [numBitsAux, h]
  | succ fuel ih =>
    by_cases hv : v = 0
    · simp [numBitsAux, hv]
    · have hdiv : v / 2 < 2 ^ fuel := by
        have : v < 2 ^ fuel * 2 := by
          calc v < 2 ^ (fuel + 1) := h
            _ = 2 ^ fuel * 2 := by rw [pow_succ]
        omega
      have := ih (v / 2) hdiv
      rw [numBitsAux]
      simp only [hv, if_false]
      have h2 : v / 2 < 2 ^ numBitsAux fuel (v / 2) := this
      have : v < 2 ^ (numBitsAux fuel (v / 2) + 1) := by
        rw [pow_succ]
        omega
      simpa [hv] using this

theorem numBitsAux_le (fuel v m : Nat) (h : v < 2 ^ m) :
    numBitsAux fuel v ≤ m := by
  induction fuel generalizing v m with
  | zero => simp [numBitsAux]
  | succ fuel ih =>
    by_cases hv : v = 0
    · simp [numBitsAux, hv]
    · rw [numBitsAux]
      simp only [hv, if_false]
      rcases m with _ | m
      · simp at h
        omega
      · have hdiv : v / 2 < 2 ^ m := by
          have : v < 2 ^ m * 2 := by
            calc v < 2 ^ (m + 1) := h
              _ = 2 ^ m * 2 := by rw [pow_succ]
          omega
        have := ih (v / 2) m hdiv
        omega

theorem lt_two_pow_bnNumBits (v : Nat) : v < 2 ^ bnNumBits v := by
  apply numBitsAux_lt
  calc v < 2 ^ v := Nat.lt_two_pow v
    _ ≤ 2 ^ (v + 1) := Nat.pow_le_pow_right (by norm_num) (by omega)

theorem bnNumBits_le {v m : Nat} (h : v < 2 ^ m) : bnNumBits v ≤ m :=
  numBitsAux_le _ v m h

theorem lt_pow_bnNumBytes (v : Nat) : v < 256 ^ bnNumBytes v := by
  have h1 : v < 2 ^ bnNumBits v := lt_two_pow_bnNumBits v
  have h2 : bnNumBits v ≤ 8 * bnNumBytes v := by
    unfold bnNumBytes
    omega
  calc v < 2 ^ bnNumBits v := h1
    _ ≤ 2 ^ (8 * bnNumBytes v) := Nat.pow_le_pow_right (by norm_num) h2
    _ = (2 ^ 8) ^ bnNumBytes v := by rw [← pow_mul]
    _ = 256 ^ bnNumBytes v := by norm_num

theorem bnNumBytes_le_32 {v : Nat} (h : v < 2 ^ 256) : bnNumBytes v ≤ 32 := by
  have := bnNumBits_le h
  unfold bnNumBytes
  omega

theorem lt_two_pow_256_of_bits_le {v : Nat} (h : bnNumBits v ≤ 256) :
    v < 2 ^ 256 :=
  calc v < 2 ^ bnNumBits v := lt_two_pow_bnNumBits v
    _ ≤ 2 ^ 256 := Nat.pow_le_pow_right (by norm_num) h

theorem writeAt_pad {k v : Nat} (hk : k ≤ 32) (hv : v < 256 ^ k) :
    writeAt (List.replicate 32 0) (32 - k) (beBytes k v) = beBytes 32 v := by
  have hlen := beBytes_length k v
  have e1 : 32 - k + (beBytes k v).length = 32 := by omega
  have e2 : min (32 - k) 32 = 32 - k := by omega
  rw [writeAt, e1]
  simp only [List.take_replicate, List.drop_replicate, e2, Nat.sub_self,
    List.replicate_zero, List.append_nil]
  calc List.replicate (32 - k) (0:Nat) ++ beBytes k v
      = beBytes (32 - k + k) v := (beBytes_pad _ hv).symm
    _ = beBytes 32 v := by rw [Nat.sub_add_cancel hk]

theorem writeAt_p64 {r s kr ks : Nat} (hkr : kr ≤ 32) (hks : ks ≤ 32)
    (hr : r < 256 ^ kr) (hs : s < 256 ^ ks) :
    writeAt (writeAt (List.replicate 64 0) (32 - kr) (beBytes kr r))
        (64 - ks) (beBytes ks s) = beBytes 32 r ++ beBytes 32 s := by
  have hlenr := beBytes_length kr r
  have hlens := beBytes_length ks s
  have e1 : 32 - kr + (beBytes kr r).length = 32 := by omega
  have e2 : min (32 - kr) 64 = 32 - kr := by omega
  have hfront : List.replicate (32 - kr) (0:Nat) ++ beBytes kr r =
      beBytes 32 r :=
    calc List.replicate (32 - kr) (0:Nat) ++ beBytes kr r
        = beBytes (32 - kr + kr) r := (beBytes_pad _ hr).symm
      _ = beBytes 32 r := by rw [Nat.sub_add_cancel hkr]
  have hback : List.replicate (32 - ks) (0:Nat) ++ beBytes ks s =
      beBytes 32 s :=
    calc List.replicate (32 - ks) (0:Nat) ++ beBytes ks s
        = beBytes (32 - ks + ks) s := (beBytes_pad _ hs).symm
      _ = beBytes 32 s := by rw [Nat.sub_add_cancel hks]
  have e64 : (64:Nat) - 32 = 32 := by omega
  have hinner : writeAt (List.replicate 64 0) (32 - kr) (beBytes kr r)
      = beBytes 32 r ++ List.replicate 32 0 := by
    rw [writeAt, e1]
    simp only [List.take_replicate, List.drop_replicate, e2]
    rw [e64, ← hfront]
  rw [hinner, writeAt]
  have e3 : 64 - ks + (beBytes ks s).length = 64 := by omega
  rw [e3]
  have hlen64 : (beBytes 32 r ++ List.replicate 32 (0:Nat)).length = 64 := by
    simp [beBytes_length]
  rw [List.drop_of_length_le (le_of_eq hlen64), List.append_nil,
    List.take_append_eq_append_take]
  have e4 : List.take (64 - ks) (beBytes 32 r) = beBytes 32 r :=
    List.take_of_length_le (by rw [beBytes_length]; omega)
  have e5 : 64 - ks - (beBytes 32 r).length = 32 - ks := by
    rw [beBytes_length]; omega
  rw [e4, e5, List.take_replicate]
  have e6 : min (32 - ks) 32 = 32 - ks := by omega
  rw [e6, ← hback]
  all_goals simp only [List.append_assoc]

theorem tweakSecret_fst (out0 secretIn tweak : List Nat) :
    (CECKey.TweakSecret out0 secretIn tweak).1 =
      (decide (beNat tweak < secpOrder) &&
        !decide ((beNat secretIn + beNat tweak) % secpOrder = 0)) := rfl

theorem tweakSecret_snd (out0 secretIn tweak : List Nat) :
    (CECKey.TweakSecret out0 secretIn tweak).2 =
      beBytes 32 ((beNat secretIn + beNat tweak) % secpOrder) := by
  have h1 : (beNat secretIn + beNat tweak) % secpOrder < secpOrder :=
    Nat.mod_lt _ (by decide)
  have h2 : secpOrder < 2 ^ 256 := by decide
  show writeAt (List.replicate 32 0)
      (32 - bnNumBytes ((beNat secretIn + beNat tweak) % secpOrder))
      (beBytes (bnNumBytes ((beNat secretIn + beNat tweak) % secpOrder))
        ((beNat secretIn + beNat tweak) % secpOrder)) = _
  exact writeAt_pad (bnNumBytes_le_32 (by omega)) (lt_pow_bnNumBytes _)

theorem signCompact_ok_p64 {sig : ECDSASig} {recover : Nat → Option Nat}
    {pk : Nat} {p64 : List Nat} {i : Nat}
    (h : CECKey.SignCompact (some sig) recover pk = SCOutcome.ok p64 i) :
    p64 = beBytes 32 sig.r ++ beBytes 32 sig.s ∧
      sig.r < 2 ^ 256 ∧ sig.s < 2 ^ 256 := by
  simp only [CECKey.SignCompact] at h
  by_cases hb : bnNumBits sig.r ≤ 256 ∧ bnNumBits sig.s ≤ 256
  · rw [if_pos hb] at h
    have hr2 : sig.r < 2 ^ 256 := lt_two_pow_256_of_bits_le hb.1
    have hs2 : sig.s < 2 ^ 256 := lt_two_pow_256_of_bits_le hb.2
    rcases hfind : findRecid recover pk with _ | j
    · rw [hfind] at h
      exact absurd h (by simp)
    · rw [hfind] at h
      have hw := writeAt_p64 (bnNumBytes_le_32 hr2) (bnNumBytes_le_32 hs2)
        (lt_pow_bnNumBytes sig.r) (lt_pow_bnNumBytes sig.s)
      injection h with h1 h2
      exact ⟨h1 ▸ hw.symm ▸ rfl, hr2, hs2⟩
  · rw [if_neg hb] at h
    exact absurd h (by simp)

/-- C1: the claim says `Recover` rejects the recovery id exactly when it is
outside `[0,3]`, but the guard `rec<0 || rec>=3` in `CECKey::Recover` also
rejects `rec = 3`: with a provider that succeeds for every recovery id,
`Recover` still returns false at `rec = 3`, while `rec = 2` reaches the
provider recovery step. The code contradicts its own compact-signature
documentation (`0x1E` = second key with odd y, i.e. recid 3) and the
`0..3` search in `SignCompact`. -/
theorem C1_recover_rejects_recid3 :
    CECKey.Recover (List.replicate 64 0) 3 (fun _ _ _ => true) = false
    ∧ CECKey.Recover (List.replicate 64 0) 2 (fun _ _ _ => true) = true := by
  constructor
  · rfl
  · rfl

set_option linter.unusedVariables false in
/-- C2: additive-tweak consistency: for a valid secret scalar `s` and a
32-byte tweak below the order, whenever both `TweakSecret` and
`TweakPublic` report success, the public key derived from the tweaked
secret equals the tweaked public key. -/
theorem C2_tweak_consistency (out0 tweak : List Nat) (s : Nat)
    (hs1 : 1 ≤ s) (hs2 : s < secpOrder)
    (ht : beNat tweak < secpOrder)
    (h1 : (CECKey.TweakSecret out0 (beBytes 32 s) tweak).1 = true)
    (h2 : (CECKey.TweakPublic (PublicKeyOf s) tweak).1 = true) :
    PublicKeyOf (beNat (CECKey.TweakSecret out0 (beBytes 32 s) tweak).2) =
      (CECKey.TweakPublic (PublicKeyOf s) tweak).2 := by
  have hord : secpOrder < 2 ^ 256 := by decide
  have hpow : (256:Nat) ^ 32 = 2 ^ 256 := by decide
  have hs256 : s < 256 ^ 32 := by omega
  have hm : (s + beNat tweak) % secpOrder < secpOrder :=
    Nat.mod_lt _ (by decide)
  have hm256 : (s + beNat tweak) % secpOrder < 256 ^ 32 := by omega
  have hpk : PublicKeyOf s = s := Nat.mod_eq_of_lt hs2
  rw [hpk, tweakSecret_snd, beNat_beBytes hs256, beNat_beBytes hm256]
  show ((s + beNat tweak) % secpOrder) % secpOrder =
    (beNat tweak + s) % secpOrder
  rw [Nat.mod_mod_of_dvd _ dvd_rfl, Nat.add_comm]

theorem C2_tweak_consistency_witness :
    PublicKeyOf
        (beNat (CECKey.TweakSecret [] (beBytes 32 1) (beBytes 32 1)).2) =
      (CECKey.TweakPublic (PublicKeyOf 1) (beBytes 32 1)).2 :=
  C2_tweak_consistency [] (beBytes 32 1) 1 (by decide) (by decide)
    (by decide) (by decide) (by decide)

/-- C5: `CECKey::Sign` enforces low-S: for a provider signature with
`s < n` (the ECDSA output range), the returned signature has `s` replaced
by `n - s` exactly when the raw `s` exceeds `n/2`, and its `s` always
satisfies `s <= n/2`. -/
theorem C5_sign_low_s (raw out : ECDSASig) (hs : raw.s < secpOrder)
    (h : CECKey.Sign (some raw) = some out) :
    (secpOrder / 2 < raw.s → out.s = secpOrder - raw.s) ∧
      out.s ≤ secpOrder / 2 := by
  have hodd : secpOrder = 2 * (secpOrder / 2) + 1 := by decide
  simp only [CECKey.Sign, Option.some.injEq] at h
  subst h
  unfold signNormalize halforder
  by_cases hc : secpOrder / 2 < raw.s
  · rw [if_pos hc]
    refine ⟨fun _ => rfl, ?_⟩
    show secpOrder - raw.s ≤ secpOrder / 2
    omega
  · rw [if_neg hc]
    exact ⟨fun hcon => absurd hcon hc, by omega⟩

theorem C5_sign_low_s_witness :
    (secpOrder / 2 < (ECDSASig.mk 1 (secpOrder - 1)).s →
      (ECDSASig.mk 1 1).s = secpOrder - (ECDSASig.mk 1 (secpOrder - 1)).s) ∧
      (ECDSASig.mk 1 1).s ≤ secpOrder / 2 :=
  C5_sign_low_s (ECDSASig.mk 1 (secpOrder - 1)) (ECDSASig.mk 1 1)
    (by decide) (by decide)

set_option linter.unusedVariables false in
/-- C6: `CKey::Set` leaves the key invalid exactly when the byte range does
not have length 32 or the scalar is outside `[1, n-1]` (so scalar 0 and
any scalar at or above the order are rejected and scalar 1 is accepted);
on success the key becomes valid, the 32 scalar bytes are stored and the
compressed hint is recorded. -/
theorem C6_set_validity (k : CKey) (data : List Nat) (c : Bool)
    (hbytes : ∀ b ∈ data, b < 256) :
    ((k.set data c).fValid = true ↔
      data.length = 32 ∧ 1 ≤ beNat data ∧ beNat data < secpOrder) ∧
    ((k.set data c).fValid = true →
      (k.set data c).vch = data ∧ (k.set data c).fCompressed = c) := by
  unfold CKey.set CKey.Check
  split_ifs with hlen hchk
  · refine ⟨⟨fun h => by simp at h, fun hr => absurd hr.1 hlen⟩,
      fun h => by simp at h⟩
  · have h32 : data.length = 32 := by omega
    simp only [Bool.and_eq_true, decide_eq_true_eq] at hchk
    exact ⟨⟨fun _ => ⟨h32, hchk.1, hchk.2⟩, fun _ => rfl⟩,
      fun _ => ⟨rfl, rfl⟩⟩
  · refine ⟨⟨fun h => by simp at h, fun hr => ?_⟩, fun h => by simp at h⟩
    exact absurd (by simp [hr.2.1, hr.2.2] :
      (decide (1 ≤ beNat data) && decide (beNat data < secpOrder)) = true)
      hchk

theorem C6_set_validity_witness :
    ((CKey.mk false false (List.replicate 32 0)).set
        (List.replicate 31 0 ++ [1]) true).vch =
      List.replicate 31 0 ++ [1] :=
  ((C6_set_validity (CKey.mk false false (List.replicate 32 0))
      (List.replicate 31 0 ++ [1]) true (by decide)).2 (by decide)).1

/-- C3 as stated is false on the code: when no recovery id in 0..3 matches
the signer's key, `CECKey::SignCompact` hits `assert(fOk)` — modelled as
the `assertFail` outcome — instead of returning the explicit failure value
(`fail`, i.e. `return false`). -/
theorem C3_counterexample :
    CECKey.SignCompact (some (ECDSASig.mk 1 1)) (fun _ => none) 0 =
      SCOutcome.assertFail ∧
    SCOutcome.assertFail ≠ SCOutcome.fail := by
  exact ⟨rfl, by decide⟩

/-- C3 amended: when the provider signature exists, both components fit in
256 bits, and no recovery id in 0..3 yields the signer's own public key,
`SignCompact` aborts in `assert(fOk)` rather than returning a failure
result; `false` is returned only for a NULL `ECDSA_do_sign` result or an
oversized `r`/`s`. -/
theorem C3_assert_on_no_match (sig : ECDSASig) (recover : Nat → Option Nat)
    (pk : Nat) (hr : bnNumBits sig.r ≤ 256) (hs : bnNumBits sig.s ≤ 256)
    (hnone : findRecid recover pk = none) :
    CECKey.SignCompact (some sig) recover pk = SCOutcome.assertFail := by
  simp only [CECKey.SignCompact]
  rw [if_pos (⟨hr, hs⟩ : bnNumBits sig.r ≤ 256 ∧ bnNumBits sig.s ≤ 256),
    hnone]

theorem C3_assert_on_no_match_witness :
    CECKey.SignCompact (some (ECDSASig.mk 1 1)) (fun _ => none) 7 =
      SCOutcome.assertFail :=
  C3_assert_on_no_match (ECDSASig.mk 1 1) (fun _ => none) 7 (by decide)
    (by decide) (by decide)

/-- C4 as stated is false on the code: `SignCompact` calls `ECDSA_do_sign`
directly and never applies the low-S normalization that `Sign` performs.
With a provider signature whose `s = n - 1 > n/2` and a matching recovery
id, `SignCompact` succeeds and the `s` packed into bytes 32..63 of the
body is still `n - 1`. -/
theorem C4_counterexample :
    scPackedS (CECKey.SignCompact (some (ECDSASig.mk 1 (secpOrder - 1)))
        (fun _ => some 5) 5) = some (secpOrder - 1) ∧
    secpOrder / 2 < secpOrder - 1 := by
  exact ⟨by decide, by decide⟩

/-- C4 amended: `SignCompact` packs the provider-produced `(r, s)` without
low-S normalization: the big-endian value of bytes 32..63 of every
successful body equals the raw provider `s`, whether or not it exceeds
`n/2`. -/
theorem C4_packed_s_is_raw (sig : ECDSASig) (recover : Nat → Option Nat)
    (pk : Nat) (p64 : List Nat) (i : Nat)
    (h : CECKey.SignCompact (some sig) recover pk = SCOutcome.ok p64 i) :
    beNat (p64.drop 32) = sig.s := by
  have hpow : (256:Nat) ^ 32 = 2 ^ 256 := by decide
  obtain ⟨hp, _, hs2⟩ := signCompact_ok_p64 h
  rw [hp, List.drop_left' (by rw [beBytes_length])]
  exact beNat_beBytes (by omega)

theorem C4_packed_s_is_raw_witness :
    beNat ((beBytes 32 1 ++ beBytes 32 2).drop 32) = 2 :=
  C4_packed_s_is_raw (ECDSASig.mk 1 2) (fun _ => some 9) 9
    (beBytes 32 1 ++ beBytes 32 2) 0 (by decide)

set_option linter.unusedVariables false in
/-- C7: `TweakSecret` succeeds exactly when the tweak is below the order
and the reduced sum is nonzero; on success (indeed always) the output
buffer holds the 32-byte big-endian left-zero-padded encoding of
`(secret + tweak) mod n`. -/
theorem C7_tweakSecret (out0 secretIn tweak : List Nat)
    (h32a : secretIn.length = 32) (h32b : tweak.length = 32) :
    ((CECKey.TweakSecret out0 secretIn tweak).1 = true ↔
      beNat tweak < secpOrder ∧
        (beNat secretIn + beNat tweak) % secpOrder ≠ 0) ∧
    ((CECKey.TweakSecret out0 secretIn tweak).1 = true →
      (CECKey.TweakSecret out0 secretIn tweak).2 =
        beBytes 32 ((beNat secretIn + beNat tweak) % secpOrder)) := by
  constructor
  · rw [tweakSecret_fst]
    simp
  · exact fun _ => tweakSecret_snd out0 secretIn tweak

theorem C7_tweakSecret_witness :
    (CECKey.TweakSecret [] (beBytes 32 1) (beBytes 32 2)).2 =
      beBytes 32 ((beNat (beBytes 32 1) + beNat (beBytes 32 2)) %
        secpOrder) :=
  (C7_tweakSecret [] (beBytes 32 1) (beBytes 32 2) (by decide)
    (by decide)).2 (by decide)

/-- C8: in the 64-byte body of a successful `SignCompact`, the first 32
bytes are `r` big-endian with zero padding on the left and the last 32
bytes are `s` big-endian with zero padding on the left. -/
theorem C8_p64_layout (sig : ECDSASig) (recover : Nat → Option Nat)
    (pk : Nat) (p64 : List Nat) (i : Nat)
    (h : CECKey.SignCompact (some sig) recover pk = SCOutcome.ok p64 i) :
    p64.take 32 = beBytes 32 sig.r ∧ p64.drop 32 = beBytes 32 sig.s := by
  obtain ⟨hp, _, _⟩ := signCompact_ok_p64 h
  rw [hp, List.take_left' (by rw [beBytes_length]),
    List.drop_left' (by rw [beBytes_length])]
  exact ⟨rfl, rfl⟩

theorem C8_p64_layout_witness :
    (beBytes 32 3 ++ beBytes 32 4).take 32 = beBytes 32 3 ∧
      (beBytes 32 3 ++ beBytes 32 4).drop 32 = beBytes 32 4 :=
  C8_p64_layout (ECDSASig.mk 3 4) (fun _ => some 11) 11
    (beBytes 32 3 ++ beBytes 32 4) 0 (by decide)

/-- C9: `operator==` on `CKey` compares only the `size()`-byte prefix:
two invalid keys (size 0) compare equal exactly when their compressed
flags agree, regardless of the stored scalar bytes, and an invalid key
never compares equal to a valid one (sizes 0 and 32 differ). -/
theorem C9_keyEq_invalid (a b : CKey) :
    (a.fValid = false → b.fValid = false →
      (CKey.keyEq a b = true ↔ a.fCompressed = b.fCompressed)) ∧
    (a.fValid = false → b.fValid = true → CKey.keyEq a b = false) := by
  constructor
  · intro ha hb
    unfold CKey.keyEq CKey.size
    rw [ha, hb]
    simp
  · intro ha hb
    unfold CKey.keyEq CKey.size
    rw [ha, hb]
    simp

theorem C9_keyEq_invalid_witness :
    (CKey.keyEq (CKey.mk false true (List.replicate 32 7))
        (CKey.mk false true (List.replicate 32 9)) = true) ∧
    (CKey.keyEq (CKey.mk false true (List.replicate 32 7))
        (CKey.mk true true (List.replicate 32 7)) = false) :=
  ⟨((C9_keyEq_invalid (CKey.mk false true (List.replicate 32 7))
      (CKey.mk false true (List.replicate 32 9))).1 rfl rfl).mpr rfl,
    (C9_keyEq_invalid (CKey.mk false true (List.replicate 32 7))
      (CKey.mk true true (List.replicate 32 7))).2 rfl rfl⟩

set_option linter.unusedVariables false in
/-- C10: the tweak operations are not atomic on failure: whenever
`TweakSecret` returns failure (out-of-range tweak or zero reduced result)
it has still overwritten all 32 bytes of the output buffer with the
encoded reduced scalar (independently of the buffer's prior contents),
and a `TweakPublic` that fails for an out-of-range tweak has still
replaced the key's stored point with the tweaked point. -/
theorem C10_tweaks_not_atomic (out0 secretIn tweak : List Nat) (p : Nat)
    (h1 : (CECKey.TweakSecret out0 secretIn tweak).1 = false) :
    (CECKey.TweakSecret out0 secretIn tweak).2 =
      beBytes 32 ((beNat secretIn + beNat tweak) % secpOrder) ∧
    (CECKey.TweakSecret out0 secretIn tweak).2.length = 32 ∧
    (secpOrder ≤ beNat tweak →
      (CECKey.TweakPublic p tweak).1 = false ∧
      (CECKey.TweakPublic p tweak).2 = (beNat tweak + p) % secpOrder) := by
  refine ⟨tweakSecret_snd out0 secretIn tweak, ?_, fun h2 => ⟨?_, rfl⟩⟩
  · rw [tweakSecret_snd]
    exact beBytes_length 32 _
  · have hlt : ¬ (beNat tweak < secpOrder) := by omega
    show (decide (beNat tweak < secpOrder) &&
      !decide ((beNat tweak + p) % secpOrder = 0)) = false
    simp [hlt]

theorem C10_tweaks_not_atomic_witness :
    ((CECKey.TweakSecret [] (beBytes 32 1) (beBytes 32 secpOrder)).2 =
      beBytes 32 ((beNat (beBytes 32 1) + beNat (beBytes 32 secpOrder)) %
        secpOrder) ∧
    (CECKey.TweakSecret [] (beBytes 32 1)
        (beBytes 32 secpOrder)).2.length = 32 ∧
    (CECKey.TweakPublic 1 (beBytes 32 secpOrder)).1 = false ∧
    (CECKey.TweakPublic 1 (beBytes 32 secpOrder)).2 =
      (beNat (beBytes 32 secpOrder) + 1) % secpOrder) ∧
    (CECKey.TweakSecret [] (beBytes 32 (secpOrder - 1))
        (beBytes 32 1)).2 =
      beBytes 32 ((beNat (beBytes 32 (secpOrder - 1)) +
        beNat (beBytes 32 1)) % secpOrder) :=
  have ha := C10_tweaks_not_atomic [] (beBytes 32 1) (beBytes 32 secpOrder)
    1 (by decide)
  have hb := C10_tweaks_not_atomic [] (beBytes 32 (secpOrder - 1))
    (beBytes 32 1) 1 (by decide)
  ⟨⟨ha.1, ha.2.1, (ha.2.2 (by decide)).1, (ha.2.2 (by decide)).2⟩, hb.1⟩
